import Mathlib

/-!
Verification of the inventory-api data model and auth contract.

Shallow embedding of the repository's schema (src/src/db/schema.ts), the login
handler (src/src/modules/auth/auth.service.ts) and the JWT configuration
(src/src/util/jwt.ts).  Identifiers (uuid columns) are modelled as `String`,
`date` columns as `Nat` (days since an epoch), `integer` columns as `Int`.
Operations that the spec states as the public contract of the schema layer but
that have no implementation under src/ are modelled from the spec and carry a
doc comment saying so.
-/

/-- Error taxonomy of the spec: ConstraintViolation, PermissionDenied,
AuthenticationFailed, InvalidToken. -/
inductive ApiError where
  | constraintViolation
  | permissionDenied
  | authenticationFailed
  | invalidToken
deriving DecidableEq, Repr

/-- Embedding of the pgEnum permission_role from src/src/db/schema.ts:5, with the
constructors in the declared order ["viewer", "editor", "admin"]. -/
inductive PermissionRole where
  | viewer
  | editor
  | admin
deriving DecidableEq, Repr

/-- Position of a role in the declared enumeration, which the spec orders by
increasing privilege (viewer < editor < admin). -/
def PermissionRole.privilegeIndex : PermissionRole → Nat
  | .viewer => 0
  | .editor => 1
  | .admin => 2

/-- Privilege order on roles: a ≤ b when a's position in the declared
enumeration is at most b's. -/
def PermissionRole.le (a b : PermissionRole) : Prop :=
  a.privilegeIndex ≤ b.privilegeIndex

instance : DecidablePred fun p : PermissionRole × PermissionRole => p.1.le p.2 :=
  fun p => inferInstanceAs (Decidable (p.1.privilegeIndex ≤ p.2.privilegeIndex))

/-- Embedding of the users table (src/src/db/schema.ts:10-21). -/
structure User where
  id : String
  username : String
  passwordHash : String
  permissionRole : PermissionRole
deriving DecidableEq, Repr

/-- Row construction for the users table: every column of a new row not given
explicitly takes its declared default, and permission_role is declared
`.default("viewer")` (src/src/db/schema.ts:20). -/
def mkUser (id username passwordHash : String)
    (role : Option PermissionRole) : User :=
  { id := id
    username := username
    passwordHash := passwordHash
    permissionRole := role.getD .viewer }

/-- Embedding of AuthService.login (src/src/modules/auth/auth.service.ts:6-10).
The source looks up the first user whose username matches exactly, binds it to a
local, and then ends: it neither checks the password against the stored hash,
nor throws, nor returns a value.  The error channel of the `Except` models the
exceptions the async function could throw; no code path uses it. -/
def AuthService.login (db : List User) (username password : String) :
    Except ApiError Unit :=
  let _user := db.find? fun u => u.username == username
  Except.ok ()

/-- A concrete user row for evaluating the login handler. -/
def aliceUser : User :=
  { id := "u1", username := "alice", passwordHash := "hash-of-alicepw",
    permissionRole := .viewer }

/-- Claim C1: the claim says login fails with AuthenticationFailed both when the
username is unknown and when the password mismatches.  The code returns
successfully (with no value) in both situations: it never produces any error. -/
theorem C1_login_never_fails_counterexample :
    AuthService.login [aliceUser] "alice" "wrongpassword" = Except.ok () ∧
      AuthService.login [aliceUser] "nobody" "x" = Except.ok () := by
  exact ⟨rfl, rfl⟩

/-- Claim C2: the claim says a login with a matching password returns the user's
record with the passwordHash field removed.  The code's login returns no value
at all (the function body has no return statement), even when the supplied
password is exactly the stored hash's preimage recorded for alice. -/
theorem C2_login_returns_nothing_counterexample :
    AuthService.login [aliceUser] "alice" "alicepw" = Except.ok () := by
  exact rfl

/-- Claim C10: a user row created without an explicit permissionRole receives
"viewer"; the enumeration is closed with exactly viewer, editor, admin; viewer
is the least-privileged role in the spec's order; and the defaulted role is not
admin. -/
theorem C10_default_role_viewer (id username passwordHash : String) :
    (mkUser id username passwordHash none).permissionRole = .viewer ∧
      (∀ r : PermissionRole, r = .viewer ∨ r = .editor ∨ r = .admin) ∧
      (∀ r : PermissionRole, PermissionRole.le .viewer r) ∧
      (mkUser id username passwordHash none).permissionRole ≠ .admin := by
  refine ⟨rfl, ?_, ?_, by simp [mkUser]⟩
  · intro r; cases r <;> simp
  · intro r; exact Nat.zero_le _

/-- The claims a token carries, per the jwtSchema of src/src/util/jwt.ts:6-9:
the user's row and a numeric expiry instant. -/
structure JwtPayload where
  user : User
  expiresAt : Int
deriving DecidableEq, Repr

/-- A message-authentication code over the payload, modelled as a perfect MAC:
the tag determines (and is determined by) the secret and the payload. -/
structure MacTag where
  secret : String
  payload : JwtPayload
deriving DecidableEq, Repr

/-- A signed token: the payload in clear plus the signature over it. -/
structure SignedToken where
  payload : JwtPayload
  sig : MacTag
deriving DecidableEq, Repr

/-- The two token kinds configured in src/src/util/jwt.ts: accessTokenJwt and
refreshTokenJwt. -/
inductive TokenKind where
  | access
  | refresh
deriving DecidableEq, Repr

/-- The two secrets the app is configured with (src/src/util/jwt.ts:16,23 read
ACCESS_TOKEN_SECRET and REFRESH_TOKEN_SECRET from the environment). -/
structure JwtConfig where
  accessTokenSecret : String
  refreshTokenSecret : String
deriving DecidableEq, Repr

/-- The secret configured for a token kind: access and refresh tokens use
distinct configuration fields. -/
def JwtConfig.secretFor (cfg : JwtConfig) : TokenKind → String
  | .access => cfg.accessTokenSecret
  | .refresh => cfg.refreshTokenSecret

/-- Computing the MAC of a payload under a secret. -/
def macSign (secret : String) (payload : JwtPayload) : MacTag :=
  { secret := secret, payload := payload }

/-- Modelled from the spec: token issuance for one kind — `issueTokenPair(user)`
produces signed tokens embedding `{user, expiresAt}`, each signed with the
secret of its kind.  No issuing call site exists under src/; only the two jwt
plugin configurations in src/src/util/jwt.ts are declared. -/
def signToken (cfg : JwtConfig) (kind : TokenKind) (payload : JwtPayload) :
    SignedToken :=
  { payload := payload, sig := macSign (cfg.secretFor kind) payload }

/-- Modelled from the spec: `verifyToken(token, kind)` fails with InvalidToken
if the signature check against the configured secret for that kind fails or the
embedded expiresAt has passed (the spec's token state machine marks a token
expired once now ≥ expiresAt); otherwise it returns the embedded claims.  No
verification code exists under src/. -/
def verifyToken (cfg : JwtConfig) (kind : TokenKind) (tok : SignedToken)
    (now : Int) : Except ApiError JwtPayload :=
  if tok.sig ≠ macSign (cfg.secretFor kind) tok.payload then
    Except.error ApiError.invalidToken
  else if tok.payload.expiresAt ≤ now then
    Except.error ApiError.invalidToken
  else
    Except.ok tok.payload

/-- Claim C8: verification fails with InvalidToken on a bad signature; fails
with InvalidToken once the embedded expiry has passed; and a token issued for a
kind and verified for that kind before expiry succeeds, returning exactly the
claims embedded at issuance. -/
theorem C8_verifyToken_contract (cfg : JwtConfig) (kind : TokenKind)
    (tok : SignedToken) (payload : JwtPayload) (now : Int) :
    (tok.sig ≠ macSign (cfg.secretFor kind) tok.payload →
        verifyToken cfg kind tok now = Except.error ApiError.invalidToken) ∧
      (tok.payload.expiresAt ≤ now →
        verifyToken cfg kind tok now = Except.error ApiError.invalidToken) ∧
      (now < payload.expiresAt →
        verifyToken cfg kind (signToken cfg kind payload) now =
          Except.ok payload) := by
  refine ⟨fun hsig => ?_, fun hexp => ?_, fun hfresh => ?_⟩
  · simp [verifyToken, hsig]
  · by_cases hsig : tok.sig = macSign (cfg.secretFor kind) tok.payload
    · simp [verifyToken, hsig, hexp]
    · simp [verifyToken, hsig]
  · simp [verifyToken, signToken, not_le.mpr hfresh]

/-- A concrete payload for exercising the token contract. -/
def alicePayload : JwtPayload :=
  { user := aliceUser, expiresAt := 100 }

/-- A concrete configuration for exercising the token contract. -/
def demoJwtConfig : JwtConfig :=
  { accessTokenSecret := "s-access", refreshTokenSecret := "s-refresh" }

/-- Witness for C8 at concrete inputs: a token signed with the refresh secret
fails access-kind verification; the same token fails after expiry; and it
verifies before expiry returning the embedded claims. -/
theorem C8_verifyToken_contract_witness :
    verifyToken demoJwtConfig .access
        (signToken demoJwtConfig .refresh alicePayload) 0 =
      Except.error ApiError.invalidToken ∧
    verifyToken demoJwtConfig .access
        (signToken demoJwtConfig .access alicePayload) 100 =
      Except.error ApiError.invalidToken ∧
    verifyToken demoJwtConfig .access
        (signToken demoJwtConfig .access alicePayload) 0 =
      Except.ok alicePayload := by
  refine ⟨?_, ?_, ?_⟩
  · exact (C8_verifyToken_contract demoJwtConfig .access
      (signToken demoJwtConfig .refresh alicePayload) alicePayload 0).1
      (by decide)
  · exact (C8_verifyToken_contract demoJwtConfig .access
      (signToken demoJwtConfig .access alicePayload) alicePayload 100).2.1
      (by decide)
  · exact (C8_verifyToken_contract demoJwtConfig .access
      (signToken demoJwtConfig .access alicePayload) alicePayload 0).2.2
      (by decide)

/-- Embedding of the pgEnum inventory_item_state from src/src/db/schema.ts:124. -/
inductive InventoryItemState where
  | ok
  | damaged
  | lost
  | orphaned
deriving DecidableEq, Repr

/-- Embedding of the inventory_items table (src/src/db/schema.ts:139-176).
Columns without .notNull() are Options; location_id is a nullable
self-referential foreign key onto inventory_items.id. -/
structure InventoryItem where
  id : String
  tag : Option String
  typeId : String
  sourceId : String
  locationId : Option String
  state : InventoryItemState
  summary : Option String
  is_countable : Bool
  unit_price : Option Int
  acquired_date : Option Nat
deriving DecidableEq, Repr

/-- Embedding of the inventory_item_stock_counts table
(src/src/db/schema.ts:208-228), whose composite primary key is
(item_id, count_date). -/
structure InventoryItemStockCount where
  itemId : String
  count : Int
  countDate : Nat
  administrative : Bool
  userId : String
deriving DecidableEq, Repr

/-- The composite-primary-key invariant of the stock-counts table: no two rows
share the (itemId, countDate) pair. -/
def StockCountPkUnique (tbl : List InventoryItemStockCount) : Prop :=
  tbl.Pairwise fun a b => ¬(a.itemId = b.itemId ∧ a.countDate = b.countDate)

/-- Modelled from the spec: inserting a stock-count row under the composite
primary key (itemId, countDate) declared at src/src/db/schema.ts:226.  The
storage layer rejects a row whose key pair is already present with
ConstraintViolation, leaving the table unchanged; no insert code exists under
src/.  The result is the new table together with the error, if any. -/
def insertStockCount (tbl : List InventoryItemStockCount)
    (row : InventoryItemStockCount) :
    List InventoryItemStockCount × Option ApiError :=
  if tbl.any fun r => r.itemId == row.itemId && r.countDate == row.countDate then
    (tbl, some ApiError.constraintViolation)
  else
    (tbl ++ [row], none)

/-- The states of the stock-counts table reachable from an empty table through
the insert operation (failed inserts keep the previous state). -/
inductive ReachableStockCounts : List InventoryItemStockCount → Prop where
  | empty : ReachableStockCounts []
  | insert (tbl : List InventoryItemStockCount) (row : InventoryItemStockCount) :
      ReachableStockCounts tbl → ReachableStockCounts (insertStockCount tbl row).1

/-- A successful insert of a fresh key pair preserves the composite-key
invariant. -/
theorem insertStockCount_preserves_pkUnique
    (tbl : List InventoryItemStockCount) (row : InventoryItemStockCount)
    (h : StockCountPkUnique tbl) :
    StockCountPkUnique (insertStockCount tbl row).1 := by
  unfold insertStockCount
  by_cases hc :
      tbl.any fun r => r.itemId == row.itemId && r.countDate == row.countDate
  · simpa [hc] using h
  · simp only [hc, Bool.false_eq_true, if_neg, ite_false]
    rw [List.any_eq_true] at hc
    push_neg at hc
    unfold StockCountPkUnique
    rw [List.pairwise_append]
    refine ⟨h, List.pairwise_singleton _ _, ?_⟩
    intro a ha b hb
    rw [List.mem_singleton] at hb
    subst hb
    intro hcontra
    exact hc a ha (by simp [hcontra.1, hcontra.2])

/-- Every reachable state of the stock-counts table satisfies the
composite-key invariant. -/
theorem reachableStockCounts_pkUnique (tbl : List InventoryItemStockCount)
    (h : ReachableStockCounts tbl) : StockCountPkUnique tbl := by
  induction h with
  | empty => exact List.Pairwise.nil
  | insert tbl row _ ih => exact insertStockCount_preserves_pkUnique tbl row ih

/-- Claim C4: every reachable state of the stock-counts table has at most one
row per (itemId, countDate) pair, and inserting a row whose pair is already
present fails with ConstraintViolation and leaves the table unchanged. -/
theorem C4_stockCount_composite_key (tbl : List InventoryItemStockCount)
    (row : InventoryItemStockCount) :
    (ReachableStockCounts tbl → StockCountPkUnique tbl) ∧
      ((∃ r ∈ tbl, r.itemId = row.itemId ∧ r.countDate = row.countDate) →
        insertStockCount tbl row = (tbl, some ApiError.constraintViolation)) := by
  constructor
  · exact reachableStockCounts_pkUnique tbl
  · rintro ⟨r, hr, hid, hdate⟩
    have hany :
        tbl.any (fun r => r.itemId == row.itemId && r.countDate == row.countDate) =
          true := by
      rw [List.any_eq_true]
      exact ⟨r, hr, by simp [hid, hdate]⟩
    simp [insertStockCount, hany]

/-- A concrete stock-count row for exercising the composite-key contract. -/
def countRowMonday : InventoryItemStockCount :=
  { itemId := "item1", count := 5, countDate := 10, administrative := false,
    userId := "u1" }

/-- A second count for the same item and date with a different value. -/
def countRowMondayAgain : InventoryItemStockCount :=
  { itemId := "item1", count := 7, countDate := 10, administrative := false,
    userId := "u2" }

/-- Witness for C4 at a concrete table: the one-row table reached by a first
insert satisfies the invariant, and a second insert for the same (item, date)
fails with ConstraintViolation leaving the table unchanged. -/
theorem C4_stockCount_composite_key_witness :
    StockCountPkUnique [countRowMonday] ∧
      insertStockCount [countRowMonday] countRowMondayAgain =
        ([countRowMonday], some ApiError.constraintViolation) := by
  constructor
  · have h1 : ReachableStockCounts (insertStockCount [] countRowMonday).1 :=
      ReachableStockCounts.insert [] countRowMonday ReachableStockCounts.empty
    have he : (insertStockCount [] countRowMonday).1 = [countRowMonday] := by
      simp [insertStockCount]
    exact (C4_stockCount_composite_key [countRowMonday] countRowMonday).1
      (he ▸ h1)
  · exact (C4_stockCount_composite_key [countRowMonday] countRowMondayAgain).2
      ⟨countRowMonday, by simp, rfl, rfl⟩

/-- Modelled from the spec: `recordStockCount(item, count, date, administrative,
actingUser)` fails with PermissionDenied if administrative is true and the
acting user's permissionRole is not admin; otherwise it inserts the row, which
fails with ConstraintViolation if a count already exists for (item, date).  The
policy is enforced above the schema; no implementation exists under src/. -/
def recordStockCount (tbl : List InventoryItemStockCount) (item : InventoryItem)
    (count : Int) (date : Nat) (administrative : Bool) (actingUser : User) :
    List InventoryItemStockCount × Option ApiError :=
  if administrative && !(actingUser.permissionRole == PermissionRole.admin) then
    (tbl, some ApiError.permissionDenied)
  else
    insertStockCount tbl
      { itemId := item.id, count := count, countDate := date,
        administrative := administrative, userId := actingUser.id }

/-- Claim C5: an administrative stock count by a non-admin fails with
PermissionDenied and creates no row; the same call by an admin succeeds when no
other precondition is violated (no count yet exists for the item and date),
appending exactly the new row. -/
theorem C5_administrative_requires_admin (tbl : List InventoryItemStockCount)
    (item : InventoryItem) (count : Int) (date : Nat) (actingUser : User) :
    (actingUser.permissionRole ≠ PermissionRole.admin →
        recordStockCount tbl item count date true actingUser =
          (tbl, some ApiError.permissionDenied)) ∧
      (actingUser.permissionRole = PermissionRole.admin →
        (∀ r ∈ tbl, ¬(r.itemId = item.id ∧ r.countDate = date)) →
        recordStockCount tbl item count date true actingUser =
          (tbl ++
            [{ itemId := item.id, count := count, countDate := date,
               administrative := true, userId := actingUser.id }], none)) := by
  constructor
  · intro hrole
    have hb : (actingUser.permissionRole == PermissionRole.admin) = false := by
      simpa using hrole
    simp [recordStockCount, hb]
  · intro hrole hfresh
    have hb : (actingUser.permissionRole == PermissionRole.admin) = true := by
      simpa using hrole
    have hany :
        (tbl.any fun r => r.itemId == item.id && r.countDate == date) = false := by
      rw [List.any_eq_false]
      intro r hr
      have := hfresh r hr
      simp only [Bool.and_eq_true, beq_iff_eq, not_and]
      intro h1 h2
      exact this ⟨h1, h2⟩
    simp [recordStockCount, hb, insertStockCount, hany]

/-- A concrete admin user for exercising the stock-count policy. -/
def adminUser : User :=
  { id := "u9", username := "root", passwordHash := "h", permissionRole := .admin }

/-- A concrete inventory item (a countable box of screws) for exercising the
schema-layer operations. -/
def screwBoxItem : InventoryItem :=
  { id := "item1", tag := none, typeId := "t1", sourceId := "s1",
    locationId := none, state := .ok, summary := none, is_countable := true,
    unit_price := none, acquired_date := none }

/-- Witness for C5 at concrete inputs: the viewer aliceUser is refused an
administrative count on an empty table, and adminUser succeeds there. -/
theorem C5_administrative_requires_admin_witness :
    recordStockCount [] screwBoxItem 5 10 true aliceUser =
        ([], some ApiError.permissionDenied) ∧
      recordStockCount [] screwBoxItem 5 10 true adminUser =
        ([{ itemId := "item1", count := 5, countDate := 10,
            administrative := true, userId := "u9" }], none) := by
  constructor
  · exact (C5_administrative_requires_admin [] screwBoxItem 5 10 aliceUser).1
      (by decide)
  · have h := (C5_administrative_requires_admin [] screwBoxItem 5 10 adminUser).2
      rfl (by simp)
    simpa [screwBoxItem, adminUser] using h

/-- The later of two stock counts by countDate, keeping the first on ties. -/
def laterCount (best c : InventoryItemStockCount) : InventoryItemStockCount :=
  if best.countDate < c.countDate then c else best

/-- The stock count with the maximum countDate among a head row and a list of
further rows. -/
def latestCount (r : InventoryItemStockCount)
    (rs : List InventoryItemStockCount) : InventoryItemStockCount :=
  rs.foldl laterCount r

/-- Modelled from the spec: `currentQuantity(item)` returns 1 immediately if the
item is not countable (the schema's own doc comment at schema.ts:205-206 states
records in the stock-counts table are then disregarded and the quantity is
always 1); otherwise it returns the count of the stock-count row with max
countDate for the item, or a defined unknown result (here `none`) if no row
exists.  No implementation exists under src/. -/
def currentQuantity (item : InventoryItem)
    (counts : List InventoryItemStockCount) : Option Int :=
  if !item.is_countable then some 1
  else
    match counts.filter fun c => c.itemId == item.id with
    | [] => none
    | r :: rs => some (latestCount r rs).count

/-- The maximum-by-date row is one of the rows it was taken over. -/
theorem latestCount_mem (r : InventoryItemStockCount)
    (rs : List InventoryItemStockCount) :
    latestCount r rs = r ∨ latestCount r rs ∈ rs := by
  induction rs generalizing r with
  | nil => exact Or.inl rfl
  | cons c rs ih =>
    have hstep : latestCount r (c :: rs) = latestCount (laterCount r c) rs := rfl
    rcases ih (laterCount r c) with h | h
    · rw [hstep, h]
      unfold laterCount
      by_cases hlt : r.countDate < c.countDate
      · simp [hlt]
      · simp [hlt]
    · exact Or.inr (List.mem_cons_of_mem c (hstep ▸ h))

/-- The starting row's date is at most the maximum-by-date row's date. -/
theorem le_latestCount_init (r : InventoryItemStockCount)
    (rs : List InventoryItemStockCount) :
    r.countDate ≤ (latestCount r rs).countDate := by
  induction rs generalizing r with
  | nil => exact Nat.le_refl _
  | cons c rs ih =>
    have hstep : latestCount r (c :: rs) = latestCount (laterCount r c) rs := rfl
    have h1 : r.countDate ≤ (laterCount r c).countDate := by
      unfold laterCount
      by_cases hlt : r.countDate < c.countDate
      · simp [hlt]
        exact Nat.le_of_lt hlt
      · simp [hlt]
    rw [hstep]
    exact Nat.le_trans h1 (ih (laterCount r c))

/-- Every listed row's date is at most the maximum-by-date row's date. -/
theorem le_latestCount_mem (r x : InventoryItemStockCount)
    (rs : List InventoryItemStockCount) (hx : x ∈ rs) :
    x.countDate ≤ (latestCount r rs).countDate := by
  induction rs generalizing r with
  | nil => cases hx
  | cons c rs ih =>
    have hstep : latestCount r (c :: rs) = latestCount (laterCount r c) rs := rfl
    rw [hstep]
    rcases List.mem_cons.mp hx with hxc | hxs
    · subst hxc
      have h1 : x.countDate ≤ (laterCount r x).countDate := by
        unfold laterCount
        by_cases hlt : r.countDate < x.countDate
        · simp [hlt]
        · simp [hlt]
          exact Nat.le_of_not_lt hlt
      exact Nat.le_trans h1 (le_latestCount_init (laterCount r x) rs)
    · exact ih (laterCount r c) hxs

/-- Claim C3: a non-countable item has quantity 1 whatever stock-count rows are
present; a countable item with at least one row gets the count of a row of
maximal countDate among its rows (unique when dates are distinct, as the
composite key guarantees); a countable item with no row gets the defined
unknown result `none`. -/
theorem C3_currentQuantity_defined (item : InventoryItem)
    (counts : List InventoryItemStockCount) :
    (item.is_countable = false → currentQuantity item counts = some 1) ∧
      (item.is_countable = true → (∃ r ∈ counts, r.itemId = item.id) →
        ∃ r ∈ counts, r.itemId = item.id ∧
          currentQuantity item counts = some r.count ∧
          ∀ r2 ∈ counts, r2.itemId = item.id → r2.countDate ≤ r.countDate) ∧
      (item.is_countable = true → (∀ r ∈ counts, r.itemId ≠ item.id) →
        currentQuantity item counts = none) := by
  refine ⟨fun hnc => ?_, fun hc hex => ?_, fun hc hnone => ?_⟩
  · simp [currentQuantity, hnc]
  · obtain ⟨r0, hr0, hid0⟩ := hex
    have hr0f : r0 ∈ counts.filter fun c => c.itemId == item.id :=
      List.mem_filter.mpr ⟨hr0, by simp [hid0]⟩
    cases hl : counts.filter fun c => c.itemId == item.id with
    | nil => rw [hl] at hr0f; cases hr0f
    | cons hd tl =>
      refine ⟨latestCount hd tl, ?_, ?_, ?_, ?_⟩
      · have hmem : latestCount hd tl ∈ hd :: tl := by
          rcases latestCount_mem hd tl with h | h
          · rw [h]; exact List.mem_cons_self hd tl
          · exact List.mem_cons_of_mem hd h
        have := hl ▸ hmem
        exact (List.mem_filter.mp this).1
      · have hmem : latestCount hd tl ∈ hd :: tl := by
          rcases latestCount_mem hd tl with h | h
          · rw [h]; exact List.mem_cons_self hd tl
          · exact List.mem_cons_of_mem hd h
        have := hl ▸ hmem
        simpa using (List.mem_filter.mp this).2
      · simp [currentQuantity, hc, hl]
      · intro r2 hr2 hid2
        have hr2f : r2 ∈ counts.filter fun c => c.itemId == item.id :=
          List.mem_filter.mpr ⟨hr2, by simp [hid2]⟩
        rw [hl] at hr2f
        rcases List.mem_cons.mp hr2f with h | h
        · subst h; exact le_latestCount_init r2 tl
        · exact le_latestCount_mem hd r2 tl h
  · have hl : (counts.filter fun c => c.itemId == item.id) = [] := by
      rw [List.filter_eq_nil_iff]
      intro r hr
      simpa using hnone r hr
    simp [currentQuantity, hc, hl]

/-- A concrete non-countable item: an asset-tagged laptop. -/
def laptopItem : InventoryItem :=
  { id := "item2", tag := some "A-42", typeId := "t2", sourceId := "s2",
    locationId := none, state := .ok, summary := none, is_countable := false,
    unit_price := none, acquired_date := none }

/-- A later stock count for the screw box: 7 screws on day 20. -/
def countRowDay20 : InventoryItemStockCount :=
  { itemId := "item1", count := 7, countDate := 20, administrative := false,
    userId := "u1" }

/-- Witness for C3 at concrete inputs: a non-countable item with a stock row
still has quantity 1; the countable screw box with counts on days 10 and 20
takes the day-20 count 7; with no rows its quantity is the unknown result. -/
theorem C3_currentQuantity_defined_witness :
    currentQuantity laptopItem [countRowMonday] = some 1 ∧
      currentQuantity screwBoxItem [countRowMonday, countRowDay20] = some 7 ∧
      currentQuantity screwBoxItem [] = none := by
  refine ⟨?_, ?_, ?_⟩
  · exact (C3_currentQuantity_defined laptopItem [countRowMonday]).1 rfl
  · have h := (C3_currentQuantity_defined screwBoxItem
        [countRowMonday, countRowDay20]).2.1 rfl
      ⟨countRowMonday, by simp, rfl⟩
    obtain ⟨r, hr, hid, heq, hmax⟩ := h
    have h20 : countRowDay20.countDate ≤ r.countDate :=
      hmax countRowDay20 (by simp) rfl
    rcases List.mem_cons.mp hr with h | h
    · subst h
      exact absurd h20 (by decide)
    · have : r = countRowDay20 := by simpa using h
      subst this
      exact heq
  · exact (C3_currentQuantity_defined screwBoxItem []).2.2 rfl
      (by intro r hr; cases hr)

/-- Embedding of the inventory_item_types table (src/src/db/schema.ts:42-50). -/
structure InventoryItemType where
  id : String
  consumable : Bool
  description : Option String
deriving DecidableEq, Repr

/-- Embedding of the bom_items table (src/src/db/schema.ts:88-106).  The two id
columns are declared without .notNull(), so they are Options here; the table's
composite primary key (item_type_id, ingredient_type_id) at schema.ts:104 makes
Postgres reject null in either column on insert. -/
structure BomItem where
  itemTypeId : Option String
  ingredientTypeId : Option String
  quantity : Int
  reclaimable : Bool
deriving DecidableEq, Repr

/-- The catalog portion of the database: item types and the BOM edges between
them. -/
structure CatalogState where
  itemTypes : List InventoryItemType
  bom : List BomItem
deriving DecidableEq, Repr

/-- Whether a BOM row carries the given composite key. -/
def bomKeyMatches (itemType ingredientType : String) (b : BomItem) : Bool :=
  b.itemTypeId == some itemType && b.ingredientTypeId == some ingredientType

/-- Modelled from the spec: creating an inventory item type row under its
primary key (schema.ts:43); no creation code exists under src/. -/
def addInventoryItemType (st : CatalogState) (t : InventoryItemType) :
    CatalogState × Option ApiError :=
  if st.itemTypes.any fun u => u.id == t.id then
    (st, some ApiError.constraintViolation)
  else
    ({ itemTypes := st.itemTypes ++ [t], bom := st.bom }, none)

/-- Modelled from the spec: `upsertBomItem(itemType, ingredientType, quantity,
reclaimable)` fails with ConstraintViolation if itemType = ingredientType
(self-loop) or quantity ≤ 0 (spec section 4.1), and the foreign keys of
schema.ts:92,95 require both types to exist; otherwise it replaces the existing
edge for the composite key (itemTypeId, ingredientTypeId) of schema.ts:104 or
appends a fresh one.  No implementation exists under src/. -/
def upsertBomItem (st : CatalogState) (itemType ingredientType : String)
    (quantity : Int) (reclaimable : Bool) : CatalogState × Option ApiError :=
  if itemType = ingredientType ∨ quantity ≤ 0 then
    (st, some ApiError.constraintViolation)
  else if ¬(st.itemTypes.any fun t => t.id == itemType) ∨
      ¬(st.itemTypes.any fun t => t.id == ingredientType) then
    (st, some ApiError.constraintViolation)
  else if st.bom.any (bomKeyMatches itemType ingredientType) then
    ({ itemTypes := st.itemTypes,
       bom := st.bom.map fun b =>
         if bomKeyMatches itemType ingredientType b then
           { itemTypeId := some itemType, ingredientTypeId := some ingredientType,
             quantity := quantity, reclaimable := reclaimable }
         else b },
      none)
  else
    ({ itemTypes := st.itemTypes,
       bom := st.bom ++
         [{ itemTypeId := some itemType, ingredientTypeId := some ingredientType,
            quantity := quantity, reclaimable := reclaimable }] },
      none)

/-- Modelled from the spec: deleting an item type, permitted only with no
remaining references (spec section 3 lifecycle); the foreign keys of
schema.ts:92,95 make the store reject a delete while a BOM row references the
type. -/
def deleteInventoryItemType (st : CatalogState) (id : String) :
    CatalogState × Option ApiError :=
  if st.bom.any fun b => b.itemTypeId == some id || b.ingredientTypeId == some id then
    (st, some ApiError.constraintViolation)
  else
    ({ itemTypes := st.itemTypes.filter fun t => !(t.id == id), bom := st.bom },
      none)

/-- Well-formedness of the BOM table in a catalog state: every row's two type
references are present and resolve to existing item types, no row is a
self-loop, and every row's quantity is positive. -/
def BomWf (st : CatalogState) : Prop :=
  ∀ b ∈ st.bom,
    (∃ t ∈ st.itemTypes, b.itemTypeId = some t.id) ∧
      (∃ t ∈ st.itemTypes, b.ingredientTypeId = some t.id) ∧
      b.itemTypeId ≠ b.ingredientTypeId ∧
      0 < b.quantity

/-- The catalog states reachable from the empty database through the three
catalog operations (failed operations keep the previous state). -/
inductive ReachableCatalog : CatalogState → Prop where
  | empty : ReachableCatalog { itemTypes := [], bom := [] }
  | addType (st : CatalogState) (t : InventoryItemType) :
      ReachableCatalog st → ReachableCatalog (addInventoryItemType st t).1
  | upsertBom (st : CatalogState) (a b : String) (q : Int) (r : Bool) :
      ReachableCatalog st → ReachableCatalog (upsertBomItem st a b q r).1
  | deleteType (st : CatalogState) (id : String) :
      ReachableCatalog st → ReachableCatalog (deleteInventoryItemType st id).1

/-- Adding an item type preserves BOM well-formedness. -/
theorem addInventoryItemType_preserves_bomWf (st : CatalogState)
    (t : InventoryItemType) (h : BomWf st) :
    BomWf (addInventoryItemType st t).1 := by
  unfold addInventoryItemType
  by_cases hc : st.itemTypes.any fun u => u.id == t.id
  · simpa [hc] using h
  · simp only [hc, if_false, ite_false]
    intro b hb
    obtain ⟨⟨t1, ht1, he1⟩, ⟨t2, ht2, he2⟩, hne, hq⟩ := h b hb
    exact ⟨⟨t1, List.mem_append_left _ ht1, he1⟩,
      ⟨t2, List.mem_append_left _ ht2, he2⟩, hne, hq⟩

/-- Upserting a BOM edge preserves BOM well-formedness. -/
theorem upsertBomItem_preserves_bomWf (st : CatalogState)
    (itemType ingredientType : String) (quantity : Int) (reclaimable : Bool)
    (h : BomWf st) :
    BomWf (upsertBomItem st itemType ingredientType quantity reclaimable).1 := by
  unfold upsertBomItem
  split_ifs with h1 h2 h3
  · exact h
  · exact h
  all_goals
    rw [not_or] at h1
    rw [not_or, not_not, not_not] at h2
    obtain ⟨hne, hqle⟩ := h1
    obtain ⟨hex1, hex2⟩ := h2
    rw [List.any_eq_true] at hex1 hex2
    obtain ⟨t1, ht1, he1⟩ := hex1
    obtain ⟨t2, ht2, he2⟩ := hex2
    rw [beq_iff_eq] at he1 he2
    have hnew :
        (∃ t ∈ st.itemTypes, some itemType = some t.id) ∧
          (∃ t ∈ st.itemTypes, some ingredientType = some t.id) ∧
          (some itemType ≠ some ingredientType) ∧
          (0 < quantity) := by
      refine ⟨⟨t1, ht1, by rw [he1]⟩, ⟨t2, ht2, by rw [he2]⟩, ?_, ?_⟩
      · simpa using hne
      · exact lt_of_not_le hqle
    intro b hb
  · simp only [List.mem_map] at hb
    obtain ⟨b0, hb0, hfb⟩ := hb
    by_cases hk : bomKeyMatches itemType ingredientType b0
    · rw [if_pos hk] at hfb
      subst hfb
      exact hnew
    · rw [if_neg hk] at hfb
      subst hfb
      exact h b0 hb0
  · simp only [List.mem_append, List.mem_singleton] at hb
    rcases hb with hb | hb
    · exact h b hb
    · subst hb
      exact hnew

/-- Deleting an unreferenced item type preserves BOM well-formedness. -/
theorem deleteInventoryItemType_preserves_bomWf (st : CatalogState)
    (id : String) (h : BomWf st) :
    BomWf (deleteInventoryItemType st id).1 := by
  unfold deleteInventoryItemType
  split_ifs with hc
  · exact h
  · rw [Bool.not_eq_true, List.any_eq_false] at hc
    intro b hb
    have hbm : b ∈ st.bom := hb
    obtain ⟨⟨t1, ht1, he1⟩, ⟨t2, ht2, he2⟩, hne, hq⟩ := h b hbm
    have href := hc b hbm
    simp only [Bool.or_eq_true, beq_iff_eq, not_or] at href
    refine ⟨⟨t1, ?_, he1⟩, ⟨t2, ?_, he2⟩, hne, hq⟩
    · rw [List.mem_filter]
      refine ⟨ht1, ?_⟩
      simp only [Bool.not_eq_true', beq_eq_false_iff_ne, ne_eq]
      intro hid
      exact href.1 (by rw [he1, hid])
    · rw [List.mem_filter]
      refine ⟨ht2, ?_⟩
      simp only [Bool.not_eq_true', beq_eq_false_iff_ne, ne_eq]
      intro hid
      exact href.2 (by rw [he2, hid])

/-- Every reachable catalog state has a well-formed BOM table. -/
theorem reachableCatalog_bomWf (st : CatalogState) (h : ReachableCatalog st) :
    BomWf st := by
  induction h with
  | empty => intro b hb; cases hb
  | addType st t _ ih => exact addInventoryItemType_preserves_bomWf st t ih
  | upsertBom st a b q r _ ih => exact upsertBomItem_preserves_bomWf st a b q r ih
  | deleteType st id _ ih => exact deleteInventoryItemType_preserves_bomWf st id ih

/-- Claim C7: an upsert of a self-loop edge (itemType = ingredientType) or of a
non-positive quantity fails with ConstraintViolation leaving the catalog
unchanged; consequently every reachable catalog state has a BOM table with no
(T, T) edge and no row with non-positive quantity. -/
theorem C7_upsertBomItem_guards (st : CatalogState)
    (itemType ingredientType : String) (quantity : Int) (reclaimable : Bool) :
    ((itemType = ingredientType ∨ quantity ≤ 0) →
        upsertBomItem st itemType ingredientType quantity reclaimable =
          (st, some ApiError.constraintViolation)) ∧
      (ReachableCatalog st →
        ∀ b ∈ st.bom, b.itemTypeId ≠ b.ingredientTypeId ∧ 0 < b.quantity) := by
  constructor
  · intro hbad
    unfold upsertBomItem
    rw [if_pos hbad]
  · intro hreach b hb
    obtain ⟨_, _, hne, hq⟩ := reachableCatalog_bomWf st hreach b hb
    exact ⟨hne, hq⟩

/-- A consumable screw item type for exercising the catalog operations. -/
def screwType : InventoryItemType :=
  { id := "tScrew", consumable := true, description := some "10mm Torx screw" }

/-- An assembled kit item type for exercising the catalog operations. -/
def kitType : InventoryItemType :=
  { id := "tKit", consumable := false, description := some "screw kit" }

/-- The BOM edge saying one kit consumes four screws. -/
def demoBomRow : BomItem :=
  { itemTypeId := some "tKit", ingredientTypeId := some "tScrew",
    quantity := 4, reclaimable := true }

/-- A small catalog: two item types and one BOM edge between them. -/
def demoCatalog : CatalogState :=
  { itemTypes := [screwType, kitType], bom := [demoBomRow] }

/-- The small catalog is reachable from the empty database: add the two types,
then upsert the edge. -/
theorem demoCatalog_reachable : ReachableCatalog demoCatalog := by
  have h0 := ReachableCatalog.empty
  have h1 := ReachableCatalog.addType _ screwType h0
  have h2 := ReachableCatalog.addType _ kitType h1
  have h3 := ReachableCatalog.upsertBom _ "tKit" "tScrew" 4 true h2
  have he :
      (upsertBomItem
          (addInventoryItemType
            (addInventoryItemType { itemTypes := [], bom := [] } screwType).1
            kitType).1
          "tKit" "tScrew" 4 true).1 = demoCatalog := by
    decide
  exact he ▸ h3

/-- Witness for C7 at concrete inputs: a self-loop upsert and a zero-quantity
upsert both fail with ConstraintViolation on the reachable demo catalog, whose
one BOM row is no self-loop and has positive quantity. -/
theorem C7_upsertBomItem_guards_witness :
    upsertBomItem demoCatalog "tScrew" "tScrew" 1 false =
        (demoCatalog, some ApiError.constraintViolation) ∧
      upsertBomItem demoCatalog "tKit" "tScrew" 0 true =
        (demoCatalog, some ApiError.constraintViolation) ∧
      demoBomRow.itemTypeId ≠ demoBomRow.ingredientTypeId ∧
      0 < demoBomRow.quantity := by
  refine ⟨?_, ?_, ?_⟩
  · exact (C7_upsertBomItem_guards demoCatalog "tScrew" "tScrew" 1 false).1
      (Or.inl rfl)
  · exact (C7_upsertBomItem_guards demoCatalog "tKit" "tScrew" 0 true).1
      (Or.inr (by norm_num))
  · exact (C7_upsertBomItem_guards demoCatalog "tKit" "tScrew" 4 true).2
      demoCatalog_reachable demoBomRow (by simp [demoCatalog])

/-- Claim C9: in every reachable catalog state, every BOM row references
exactly one item type and one ingredient type: both id columns are non-null and
each resolves to an existing inventory item type. -/
theorem C9_bom_references_resolve (st : CatalogState)
    (hreach : ReachableCatalog st) :
    ∀ b ∈ st.bom,
      b.itemTypeId ≠ none ∧ b.ingredientTypeId ≠ none ∧
        (∃ t ∈ st.itemTypes, b.itemTypeId = some t.id) ∧
        (∃ t ∈ st.itemTypes, b.ingredientTypeId = some t.id) := by
  intro b hb
  obtain ⟨⟨t1, ht1, he1⟩, ⟨t2, ht2, he2⟩, _, _⟩ :=
    reachableCatalog_bomWf st hreach b hb
  refine ⟨?_, ?_, ⟨t1, ht1, he1⟩, ⟨t2, ht2, he2⟩⟩
  · rw [he1]; exact Option.some_ne_none _
  · rw [he2]; exact Option.some_ne_none _

/-- Witness for C9 at the concrete reachable catalog: the demo BOM row's two
type references are both non-null. -/
theorem C9_bom_references_resolve_witness :
    demoBomRow.itemTypeId ≠ none ∧ demoBomRow.ingredientTypeId ≠ none := by
  have h := C9_bom_references_resolve demoCatalog demoCatalog_reachable
    demoBomRow (by simp [demoCatalog])
  exact ⟨h.1, h.2.1⟩

/-- The id column of every row of the inventory-items table. -/
def itemIds (st : List InventoryItem) : List String :=
  st.map fun it => it.id

/-- The location of the first item with a given id: the self-referential
foreign key location_id → inventory_items.id of src/src/db/schema.ts:156,174. -/
def parentOf (st : List InventoryItem) (a : String) : Option String :=
  match st.find? fun it => it.id == a with
  | some it => it.locationId
  | none => none

/-- Following the location chain upward a given number of steps (none once the
chain leaves the table or passes a root). -/
def parentIter (st : List InventoryItem) : Nat → String → Option String
  | 0, a => some a
  | n + 1, a => (parentOf st a).bind (parentIter st n)

/-- The list of ancestors seen while walking up from an id with bounded fuel. -/
def ancestorWalk (st : List InventoryItem) : Nat → String → List String
  | 0, _ => []
  | n + 1, a =>
    match parentOf st a with
    | none => []
    | some p => p :: ancestorWalk st n p

/-- The id a is transitively located inside the id b: some positive number of
location steps from a reaches b. -/
def LocatedWithin (st : List InventoryItem) (a b : String) : Prop :=
  ∃ k, 0 < k ∧ parentIter st k a = some b

/-- Acyclicity of the location graph: no id returns to itself after a positive
number of location steps. -/
def LocAcyclic (st : List InventoryItem) : Prop :=
  ∀ a k, 0 < k → parentIter st k a ≠ some a

/-- Bounded, decidable form of acyclicity: no listed id returns to itself
within table-length many steps. -/
def LocAcyclicUpTo (st : List InventoryItem) : Prop :=
  ∀ b ∈ itemIds st, ∀ m < st.length + 1, 0 < m → parentIter st m b ≠ some b

/-- Splitting an iterated location walk at an intermediate point. -/
theorem parentIter_add (st : List InventoryItem) (m n : Nat) (a : String) :
    parentIter st (m + n) a = (parentIter st m a).bind (parentIter st n) := by
  induction m generalizing a with
  | zero => simp [parentIter]
  | succ m ih =>
    rw [show m + 1 + n = (m + n) + 1 from by omega]
    show (parentOf st a).bind (parentIter st (m + n)) = _
    cases hp : parentOf st a with
    | none => simp [parentIter, hp]
    | some p => simp [parentIter, hp, ih]

/-- One location step is the parent lookup itself. -/
theorem parentIter_one (st : List InventoryItem) (a : String) :
    parentIter st 1 a = parentOf st a := by
  cases hp : parentOf st a with
  | none => simp [parentIter, hp]
  | some p => simp [parentIter, hp]

/-- An id whose parent lookup succeeds is listed in the table. -/
theorem mem_itemIds_of_parentOf_isSome (st : List InventoryItem) (a : String)
    (h : (parentOf st a).isSome) : a ∈ itemIds st := by
  unfold parentOf at h
  cases hf : st.find? fun it => it.id == a with
  | none => rw [hf] at h; simp at h
  | some it =>
    have hmem := List.mem_of_find?_eq_some hf
    have hpred := List.find?_some hf
    rw [beq_iff_eq] at hpred
    subst hpred
    exact List.mem_map.mpr ⟨it, hmem, rfl⟩

/-- A prefix of a defined location walk is defined. -/
theorem parentIter_isSome_of_le (st : List InventoryItem) (j k : Nat)
    (a : String) (hjk : j ≤ k) (h : (parentIter st k a).isSome) :
    (parentIter st j a).isSome := by
  have hdecomp := parentIter_add st j (k - j) a
  rw [show j + (k - j) = k from by omega] at hdecomp
  rw [hdecomp] at h
  cases hj : parentIter st j a with
  | none => rw [hj] at h; simp at h
  | some c => simp

/-- Every node of a defined location walk, except possibly the last, is listed
in the table. -/
theorem chain_node_mem (st : List InventoryItem) (k j : Nat) (a c : String)
    (hjk : j < k) (hk : (parentIter st k a).isSome)
    (hc : parentIter st j a = some c) : c ∈ itemIds st := by
  apply mem_itemIds_of_parentOf_isSome st c
  have h1 : (parentIter st (j + 1) a).isSome :=
    parentIter_isSome_of_le st (j + 1) k a (by omega) hk
  rw [parentIter_add st j 1 a, hc, Option.some_bind, parentIter_one] at h1
  exact h1

/-- A defined location walk longer than the table forces a short cycle: two of
the first length+1 nodes coincide, and the loop between them is a cycle of
length at most the table size, based at a listed id. -/
theorem exists_short_cycle (st : List InventoryItem) (a b : String) (k : Nat)
    (hk : 0 < k) (h : parentIter st k a = some b) (hlen : st.length < k) :
    ∃ c m, 0 < m ∧ m ≤ st.length ∧ parentIter st m c = some c ∧
      c ∈ itemIds st := by
  have hsome : (parentIter st k a).isSome := by rw [h]; rfl
  have hdef : ∀ j, j ≤ st.length → (parentIter st j a).isSome := fun j hj =>
    parentIter_isSome_of_le st j k a (by omega) hsome
  have key : ∀ i1 i2, i1 < i2 → i2 ≤ st.length →
      (parentIter st i1 a).getD "" = (parentIter st i2 a).getD "" →
      ∃ c m, 0 < m ∧ m ≤ st.length ∧ parentIter st m c = some c ∧
        c ∈ itemIds st := by
    intro i1 i2 hlt hle hfeq
    obtain ⟨c1, hc1⟩ := Option.isSome_iff_exists.mp (hdef i1 (by omega))
    obtain ⟨c2, hc2⟩ := Option.isSome_iff_exists.mp (hdef i2 hle)
    have hceq : c1 = c2 := by
      rw [hc1, hc2] at hfeq
      simpa using hfeq
    subst hceq
    have hdecomp := parentIter_add st i1 (i2 - i1) a
    rw [show i1 + (i2 - i1) = i2 from by omega, hc1, hc2, Option.some_bind]
      at hdecomp
    refine ⟨c1, i2 - i1, by omega, by omega, hdecomp.symm, ?_⟩
    exact chain_node_mem st k i1 a c1 (by omega) hsome hc1
  obtain ⟨j1, hj1, j2, hj2, hne, hfe⟩ :=
    Finset.exists_ne_map_eq_of_card_lt_of_maps_to
      (t := (itemIds st).toFinset)
      (s := Finset.range (st.length + 1))
      (f := fun j => (parentIter st j a).getD "")
      (by
        rw [Finset.card_range]
        have h1 : (itemIds st).toFinset.card ≤ (itemIds st).length :=
          List.toFinset_card_le _
        have h2 : (itemIds st).length = st.length := List.length_map _ _
        omega)
      (by
        intro j hj
        rw [Finset.mem_range] at hj
        obtain ⟨c, hc⟩ := Option.isSome_iff_exists.mp (hdef j (by omega))
        have hcm : c ∈ itemIds st :=
          chain_node_mem st k j a c (by omega) hsome hc
        rw [List.mem_toFinset]
        show (parentIter st j a).getD "" ∈ itemIds st
        rw [hc]
        simpa using hcm)
  rw [Finset.mem_range] at hj1 hj2
  rcases Nat.lt_or_ge j1 j2 with hlt | hge
  · exact key j1 j2 hlt (by omega) hfe
  · have hlt : j2 < j1 := by omega
    exact key j2 j1 hlt (by omega) hfe.symm

/-- In an acyclic table, a positive defined walk takes at most table-length
steps. -/
theorem parentIter_le_length_of_locAcyclic (st : List InventoryItem)
    (a b : String) (k : Nat) (hA : LocAcyclic st) (hk : 0 < k)
    (h : parentIter st k a = some b) : k ≤ st.length := by
  by_contra hgt
  push_neg at hgt
  obtain ⟨c, m, hm, _, hcyc, _⟩ := exists_short_cycle st a b k hk h hgt
  exact hA c m hm hcyc

/-- Bounded acyclicity implies full acyclicity. -/
theorem locAcyclic_of_upTo (st : List InventoryItem) (h : LocAcyclicUpTo st) :
    LocAcyclic st := by
  intro a k hk hcyc
  by_cases hlen : k ≤ st.length
  · have hsome : (parentIter st k a).isSome := by rw [hcyc]; rfl
    have hmem : a ∈ itemIds st :=
      chain_node_mem st k 0 a a (by omega) hsome rfl
    exact h a hmem k (by omega) hk hcyc
  · push_neg at hlen
    obtain ⟨c, m, hm, hmle, hccyc, hcmem⟩ :=
      exists_short_cycle st a a k hk hcyc hlen
    exact h c hcmem m (by omega) hm hccyc

/-- Bounded-walk membership captures transitive location ancestry up to the
fuel. -/
theorem mem_ancestorWalk_iff (st : List InventoryItem) (n : Nat)
    (a b : String) :
    b ∈ ancestorWalk st n a ↔
      ∃ k, 0 < k ∧ k ≤ n ∧ parentIter st k a = some b := by
  induction n generalizing a with
  | zero =>
    simp only [ancestorWalk, List.not_mem_nil, false_iff, not_exists]
    intro k
    rintro ⟨hk, hkle, _⟩
    omega
  | succ n ih =>
    cases hp : parentOf st a with
    | none =>
      simp only [ancestorWalk, hp, List.not_mem_nil, false_iff, not_exists]
      intro k
      rintro ⟨hk, hkle, hpi⟩
      cases k with
      | zero => omega
      | succ j =>
        rw [show j + 1 = 1 + j from by omega, parentIter_add, parentIter_one,
          hp] at hpi
        simp at hpi
    | some p =>
      simp only [ancestorWalk, hp, List.mem_cons]
      rw [ih p]
      constructor
      · rintro (rfl | ⟨k, hk, hkle, hpi⟩)
        · exact ⟨1, by omega, by omega, by rw [parentIter_one, hp]⟩
        · refine ⟨k + 1, by omega, by omega, ?_⟩
          rw [show k + 1 = 1 + k from by omega, parentIter_add, parentIter_one,
            hp, Option.some_bind]
          exact hpi
      · rintro ⟨k, hk, hkle, hpi⟩
        cases k with
        | zero => omega
        | succ j =>
          rw [show j + 1 = 1 + j from by omega, parentIter_add, parentIter_one,
            hp, Option.some_bind] at hpi
          cases j with
          | zero => exact Or.inl (Option.some.inj hpi).symm
          | succ j2 => exact Or.inr ⟨j2 + 1, by omega, by omega, hpi⟩

/-- Updating one item row's location column, leaving all other rows intact. -/
def updateLoc (itemId newLoc : String) (it : InventoryItem) : InventoryItem :=
  if it.id == itemId then { it with locationId := some newLoc } else it

/-- Modelled from the spec: setting an item's location must keep the location
graph acyclic, enforced at the application layer (spec section 3) by an
ancestor walk bounded by the total item count (spec section 9).  The operation
fails with ConstraintViolation if the item or the target location does not
resolve to an existing item (the foreign key of schema.ts:174), if the target
equals the item, or if the bounded walk up from the target reaches the item.
No implementation exists under src/. -/
def setItemLocation (st : List InventoryItem) (itemId newLoc : String) :
    List InventoryItem × Option ApiError :=
  if ¬(st.any fun it => it.id == itemId) ∨ ¬(st.any fun it => it.id == newLoc) then
    (st, some ApiError.constraintViolation)
  else if newLoc = itemId ∨ itemId ∈ ancestorWalk st st.length newLoc then
    (st, some ApiError.constraintViolation)
  else
    (st.map (updateLoc itemId newLoc), none)

/-- Modelled from the spec: creating an inventory item row with a fresh id and
no location (a root; giving it a location afterwards goes through the location
update and its checks). -/
def addInventoryItem (st : List InventoryItem) (item : InventoryItem) :
    List InventoryItem × Option ApiError :=
  if st.any fun it => it.id == item.id then
    (st, some ApiError.constraintViolation)
  else
    (st ++ [{ item with locationId := none }], none)

/-- The item states reachable from an empty table by adding root items and
moving items between locations (failed operations keep the previous state). -/
inductive ReachableItems : List InventoryItem → Prop where
  | empty : ReachableItems []
  | addItem (st : List InventoryItem) (item : InventoryItem) :
      ReachableItems st → ReachableItems (addInventoryItem st item).1
  | setLoc (st : List InventoryItem) (itemId newLoc : String) :
      ReachableItems st → ReachableItems (setItemLocation st itemId newLoc).1

/-- The row update preserves the id column. -/
theorem updateLoc_id (itemId newLoc : String) (it : InventoryItem) :
    (updateLoc itemId newLoc it).id = it.id := by
  unfold updateLoc
  split_ifs <;> rfl

/-- The parent lookup after a location update: the updated item now points at
the new location, every other id resolves as before. -/
theorem parentOf_map_updateLoc (st : List InventoryItem)
    (itemId newLoc x : String) :
    parentOf (st.map (updateLoc itemId newLoc)) x =
      if x = itemId ∧ x ∈ itemIds st then some newLoc else parentOf st x := by
  induction st with
  | nil => simp [parentOf, itemIds]
  | cons it rest ih =>
    have hids : itemIds (it :: rest) = it.id :: itemIds rest := rfl
    by_cases hx : it.id = x
    · have hL : parentOf (List.map (updateLoc itemId newLoc) (it :: rest)) x =
          (updateLoc itemId newLoc it).locationId := by
        unfold parentOf
        rw [List.map_cons,
          List.find?_cons_of_pos _ (by simp [updateLoc_id, hx])]
      have hR : parentOf (it :: rest) x = it.locationId := by
        unfold parentOf
        rw [List.find?_cons_of_pos _ (by simp [hx])]
      have hmem : x ∈ itemIds (it :: rest) := by
        rw [hids]
        exact hx ▸ List.mem_cons_self _ _
      rw [hL]
      by_cases hxi : x = itemId
      · rw [if_pos ⟨hxi, hmem⟩]
        simp [updateLoc, hx, hxi]
      · rw [if_neg fun hcon => hxi hcon.1, hR]
        simp [updateLoc, hx, hxi]
    · have hL : parentOf (List.map (updateLoc itemId newLoc) (it :: rest)) x =
          parentOf (List.map (updateLoc itemId newLoc) rest) x := by
        unfold parentOf
        rw [List.map_cons,
          List.find?_cons_of_neg _ (by simp [updateLoc_id, hx])]
      have hR : parentOf (it :: rest) x = parentOf rest x := by
        unfold parentOf
        rw [List.find?_cons_of_neg _ (by simp [hx])]
      have hiff : (x = itemId ∧ x ∈ itemIds rest) ↔
          (x = itemId ∧ x ∈ itemIds (it :: rest)) := by
        rw [hids]
        constructor
        · rintro ⟨h1, h2⟩
          exact ⟨h1, List.mem_cons_of_mem _ h2⟩
        · rintro ⟨h1, h2⟩
          rcases List.mem_cons.mp h2 with h2 | h2
          · exact absurd h2.symm hx
          · exact ⟨h1, h2⟩
      rw [hL, hR, ih]
      by_cases hc : x = itemId ∧ x ∈ itemIds rest
      · rw [if_pos hc, if_pos (hiff.mp hc)]
      · rw [if_neg hc, if_neg fun h => hc (hiff.mpr h)]

/-- A walk that never visits the updated item takes the same steps before and
after the location update. -/
theorem parentIter_map_updateLoc_of_avoid (st : List InventoryItem)
    (itemId newLoc : String) (k : Nat) (a : String)
    (havoid : ∀ j, j < k → ∀ c,
      parentIter (st.map (updateLoc itemId newLoc)) j a = some c → c ≠ itemId) :
    parentIter (st.map (updateLoc itemId newLoc)) k a = parentIter st k a := by
  induction k generalizing a with
  | zero => rfl
  | succ k ih =>
    have ha : a ≠ itemId := havoid 0 (by omega) a rfl
    have hpo : parentOf (st.map (updateLoc itemId newLoc)) a = parentOf st a := by
      rw [parentOf_map_updateLoc]
      exact if_neg fun hcon => ha hcon.1
    show (parentOf (st.map (updateLoc itemId newLoc)) a).bind _ =
      (parentOf st a).bind _
    rw [hpo]
    cases hp : parentOf st a with
    | none => rfl
    | some p =>
      rw [Option.some_bind, Option.some_bind]
      apply ih
      intro j hj c hc
      apply havoid (j + 1) (by omega) c
      show (parentOf (st.map (updateLoc itemId newLoc)) a).bind _ = some c
      rw [hpo, hp, Option.some_bind]
      exact hc

/-- Moving an item under the ancestor-walk check preserves acyclicity of the
location graph. -/
theorem setItemLocation_preserves_locAcyclic (st : List InventoryItem)
    (itemId newLoc : String) (hA : LocAcyclic st) :
    LocAcyclic (setItemLocation st itemId newLoc).1 := by
  unfold setItemLocation
  split_ifs with h1 h2
  · exact hA
  · exact hA
  · rw [not_or, not_not, not_not] at h1
    obtain ⟨hexItem, _⟩ := h1
    rw [not_or] at h2
    obtain ⟨hne, hwalk⟩ := h2
    have hItemMem : itemId ∈ itemIds st := by
      rw [List.any_eq_true] at hexItem
      obtain ⟨it, hit, hidq⟩ := hexItem
      rw [beq_iff_eq] at hidq
      exact List.mem_map.mpr ⟨it, hit, hidq⟩
    have hnoanc : ∀ m, 0 < m → parentIter st m newLoc ≠ some itemId := by
      intro m hm hpi
      have hmle : m ≤ st.length :=
        parentIter_le_length_of_locAcyclic st newLoc itemId m hA hm hpi
      exact hwalk
        ((mem_ancestorWalk_iff st st.length newLoc itemId).mpr ⟨m, hm, hmle, hpi⟩)
    intro a k hk hcyc
    by_cases hvisit : ∃ j, j < k ∧
        parentIter (st.map (updateLoc itemId newLoc)) j a = some itemId
    · obtain ⟨j, hj, hja⟩ := hvisit
      have hsplit := parentIter_add (st.map (updateLoc itemId newLoc)) j (k - j) a
      rw [show j + (k - j) = k from by omega, hja, Option.some_bind] at hsplit
      rw [hsplit] at hcyc
      have hrot := parentIter_add (st.map (updateLoc itemId newLoc)) (k - j) j itemId
      rw [hcyc, Option.some_bind, hja] at hrot
      have hcycI : parentIter (st.map (updateLoc itemId newLoc)) k itemId =
          some itemId := by
        rw [show k = k - j + j from by omega]
        exact hrot
      have hex : ∃ m, 0 < m ∧
          parentIter (st.map (updateLoc itemId newLoc)) m itemId = some itemId :=
        ⟨k, hk, hcycI⟩
      have hmspec := Nat.find_spec hex
      obtain ⟨hmpos, hmcyc⟩ := hmspec
      have hstep : parentOf (st.map (updateLoc itemId newLoc)) itemId =
          some newLoc := by
        rw [parentOf_map_updateLoc]
        exact if_pos ⟨rfl, hItemMem⟩
      cases hm : Nat.find hex with
      | zero => omega
      | succ m1 =>
        rw [hm] at hmcyc
        have hmc2 : parentIter (st.map (updateLoc itemId newLoc)) m1 newLoc =
            some itemId := by
          have : (parentOf (st.map (updateLoc itemId newLoc)) itemId).bind
              (parentIter (st.map (updateLoc itemId newLoc)) m1) = some itemId :=
            hmcyc
          rwa [hstep, Option.some_bind] at this
        cases hm1 : m1 with
        | zero =>
          rw [hm1] at hmc2
          exact hne (Option.some.inj hmc2)
        | succ m2 =>
          have havoid : ∀ j2, j2 < m1 → ∀ c,
              parentIter (st.map (updateLoc itemId newLoc)) j2 newLoc = some c →
                c ≠ itemId := by
            intro j2 hj2 c hc hci
            rw [hci] at hc
            cases hj20 : j2 with
            | zero =>
              rw [hj20] at hc
              exact hne (Option.some.inj hc)
            | succ j3 =>
              have hshort : parentIter (st.map (updateLoc itemId newLoc))
                  (j2 + 1) itemId = some itemId := by
                show (parentOf (st.map (updateLoc itemId newLoc)) itemId).bind
                  _ = some itemId
                rw [hstep, Option.some_bind]
                exact hc
              have hlt : j2 + 1 < Nat.find hex := by omega
              exact Nat.find_min hex hlt ⟨by omega, hshort⟩
          rw [hm1] at hmc2 havoid
          rw [parentIter_map_updateLoc_of_avoid st itemId newLoc (m2 + 1) newLoc
            havoid] at hmc2
          exact hnoanc (m2 + 1) (by omega) hmc2
    · push_neg at hvisit
      have havoid : ∀ j, j < k → ∀ c,
          parentIter (st.map (updateLoc itemId newLoc)) j a = some c →
            c ≠ itemId := by
        intro j hj c hc hci
        rw [hci] at hc
        exact hvisit j hj hc
      rw [parentIter_map_updateLoc_of_avoid st itemId newLoc k a havoid] at hcyc
      exact hA a k hk hcyc

/-- Appending a root item (no location) changes no parent lookup. -/
theorem parentOf_append_rootItem (st : List InventoryItem) (n : InventoryItem)
    (hn : n.locationId = none) (x : String) :
    parentOf (st ++ [n]) x = parentOf st x := by
  induction st with
  | nil =>
    unfold parentOf
    simp only [List.nil_append]
    by_cases hx : n.id = x
    · rw [List.find?_cons_of_pos _ (by simp [hx])]
      simp [hn]
    · rw [List.find?_cons_of_neg _ (by simp [hx])]
  | cons it rest ih =>
    by_cases hx : it.id = x
    · unfold parentOf
      rw [List.cons_append, List.find?_cons_of_pos _ (by simp [hx]),
        List.find?_cons_of_pos _ (by simp [hx])]
    · unfold parentOf
      rw [List.cons_append, List.find?_cons_of_neg _ (by simp [hx]),
        List.find?_cons_of_neg _ (by simp [hx])]
      exact ih

/-- Adding a root item preserves acyclicity of the location graph. -/
theorem addInventoryItem_preserves_locAcyclic (st : List InventoryItem)
    (item : InventoryItem) (hA : LocAcyclic st) :
    LocAcyclic (addInventoryItem st item).1 := by
  unfold addInventoryItem
  split_ifs with h
  · exact hA
  · intro a k hk hcyc
    have hpeq : ∀ j b,
        parentIter (st ++ [{ item with locationId := none }]) j b =
          parentIter st j b := by
      intro j
      induction j with
      | zero => intro b; rfl
      | succ j ihj =>
        intro b
        show (parentOf (st ++ [{ item with locationId := none }]) b).bind _ =
          (parentOf st b).bind _
        rw [parentOf_append_rootItem st _ rfl b]
        cases hp : parentOf st b with
        | none => rfl
        | some p =>
          rw [Option.some_bind, Option.some_bind]
          exact ihj p
    rw [hpeq k a] at hcyc
    exact hA a k hk hcyc

/-- Every reachable state of the inventory-items table has an acyclic location
graph. -/
theorem reachableItems_locAcyclic (st : List InventoryItem)
    (h : ReachableItems st) : LocAcyclic st := by
  induction h with
  | empty =>
    intro a k hk hcyc
    cases k with
    | zero => omega
    | succ j =>
      have : parentOf ([] : List InventoryItem) a = none := rfl
      rw [show parentIter [] (j + 1) a =
        (parentOf [] a).bind (parentIter [] j) from rfl, this] at hcyc
      simp at hcyc
  | addItem st item _ ih => exact addInventoryItem_preserves_locAcyclic st item ih
  | setLoc st itemId newLoc _ ih =>
    exact setItemLocation_preserves_locAcyclic st itemId newLoc ih

/-- Claim C6: over an acyclic items table, an operation that would set an
item's location to itself or to an item transitively located inside it fails
with ConstraintViolation and leaves the table unchanged; a location update
preserves acyclicity; and every reachable state of the table is acyclic. -/
theorem C6_location_graph_acyclic (st : List InventoryItem)
    (itemId newLoc : String) :
    (LocAcyclic st → (newLoc = itemId ∨ LocatedWithin st newLoc itemId) →
        setItemLocation st itemId newLoc =
          (st, some ApiError.constraintViolation)) ∧
      (LocAcyclic st → LocAcyclic (setItemLocation st itemId newLoc).1) ∧
      (ReachableItems st → LocAcyclic st) := by
  refine ⟨fun hA hbad => ?_,
    setItemLocation_preserves_locAcyclic st itemId newLoc,
    reachableItems_locAcyclic st⟩
  unfold setItemLocation
  split_ifs with h1 h2
  · rfl
  · rfl
  · exfalso
    apply h2
    rcases hbad with hbad | hbad
    · exact Or.inl hbad
    · obtain ⟨m, hm, hpi⟩ := hbad
      have hmle : m ≤ st.length :=
        parentIter_le_length_of_locAcyclic st newLoc itemId m hA hm hpi
      exact Or.inr
        ((mem_ancestorWalk_iff st st.length newLoc itemId).mpr ⟨m, hm, hmle, hpi⟩)

/-- A concrete root item: a shelf. -/
def shelfItem : InventoryItem :=
  { id := "shelf", tag := none, typeId := "t3", sourceId := "s3",
    locationId := none, state := .ok, summary := none, is_countable := false,
    unit_price := none, acquired_date := none }

/-- A concrete root item: a bin. -/
def binItem : InventoryItem :=
  { id := "bin", tag := none, typeId := "t3", sourceId := "s3",
    locationId := none, state := .ok, summary := none, is_countable := false,
    unit_price := none, acquired_date := none }

/-- A concrete item (a box) before being placed anywhere. -/
def boxRootItem : InventoryItem :=
  { id := "box", tag := none, typeId := "t3", sourceId := "s3",
    locationId := none, state := .ok, summary := none, is_countable := false,
    unit_price := none, acquired_date := none }

/-- The box once placed on the shelf. -/
def boxInShelfItem : InventoryItem :=
  { boxRootItem with locationId := some "shelf" }

/-- A concrete items table: a shelf, a bin and a box sitting on the shelf. -/
def demoItems : List InventoryItem :=
  [shelfItem, binItem, boxInShelfItem]

/-- The concrete table is reachable: add the three root items, then move the
box onto the shelf. -/
theorem demoItems_reachable : ReachableItems demoItems := by
  have h0 := ReachableItems.empty
  have h1 := ReachableItems.addItem [] shelfItem h0
  have h2 := ReachableItems.addItem _ binItem h1
  have h3 := ReachableItems.addItem _ boxRootItem h2
  have h4 := ReachableItems.setLoc _ "box" "shelf" h3
  have he : (setItemLocation
      (addInventoryItem
        (addInventoryItem (addInventoryItem [] shelfItem).1 binItem).1
        boxRootItem).1
      "box" "shelf").1 = demoItems := by decide
  exact he ▸ h4

/-- Witness for C6 at concrete inputs: on the reachable three-item table,
putting the shelf inside the box it holds fails, putting the box inside itself
fails, and moving the bin onto the shelf keeps the location graph acyclic. -/
theorem C6_location_graph_acyclic_witness :
    setItemLocation demoItems "shelf" "box" =
        (demoItems, some ApiError.constraintViolation) ∧
      setItemLocation demoItems "box" "box" =
        (demoItems, some ApiError.constraintViolation) ∧
      LocAcyclic (setItemLocation demoItems "bin" "shelf").1 := by
  have hA : LocAcyclic demoItems :=
    (C6_location_graph_acyclic demoItems "bin" "shelf").2.2 demoItems_reachable
  refine ⟨?_, ?_, ?_⟩
  · exact (C6_location_graph_acyclic demoItems "shelf" "box").1 hA
      (Or.inr ⟨1, Nat.one_pos, by decide⟩)
  · exact (C6_location_graph_acyclic demoItems "box" "box").1 hA (Or.inl rfl)
  · exact (C6_location_graph_acyclic demoItems "bin" "shelf").2.1 hA
